import Mathlib

/-!
# llama.soop bridge: verification of the JNI marshalling helpers and the request scheduler contract

Shallow embedding of

* `rnbridge::sanitize_utf8_for_jni` (`android/src/main/jni-utils.cpp`),
* `maputils::putString`, `listutils::pushString`, `mapreader::getInt/getLong/getFloat/getBool`
  (`android/src/main/jni-utils.h`),
* the scheduler operations declared in `ios/RNLlamaContext.h`.

Bytes (`unsigned char`) are natural numbers; a C buffer is a `List Nat` indexed with
`List.get?`-style partial indexing, so that a read past the end of the buffer is an
explicit outcome instead of undefined behaviour.  No arithmetic is done on bytes (only masks and
comparisons), and the theorems hold for lists of arbitrary naturals, in particular for lists of
values below 256.
-/

namespace rnbridge

/-! ## Outcomes of running the C++ code on a finite buffer -/

/-- Outcome of a computation that reads a finite buffer and is driven by a step budget. -/
inductive Outcome (α : Type) where
  | ok (value : α)
  | outOfBounds
  | outOfFuel
  deriving DecidableEq

/-- Sequencing of outcomes: the first failure is propagated. -/
def Outcome.bind {α β : Type} (x : Outcome α) (f : α → Outcome β) : Outcome β :=
  match x with
  | .ok a => f a
  | .outOfBounds => .outOfBounds
  | .outOfFuel => .outOfFuel

/-- Checked read `bytes[i]`. -/
def readByte (bytes : List Nat) (i : Nat) : Outcome Nat :=
  match bytes[i]? with
  | some b => .ok b
  | none => .outOfBounds

/-- C++ `lhs && rhs`: the right operand (which may read memory) is only evaluated when the left
operand is true. -/
def andAlso (lhs : Bool) (rhs : Outcome Bool) : Outcome Bool :=
  if lhs then rhs else .ok false

/-- Test `(b & 0xC0) == 0x80`. -/
def isContinuation (b : Nat) : Bool := b &&& 0xC0 == 0x80

/-- Condition of line 21: `(c & 0xE0) == 0xC0 && (bytes[i+1] & 0xC0) == 0x80`. -/
def twoByteTest (bytes : List Nat) (i c : Nat) : Outcome Bool :=
  andAlso (c &&& 0xE0 == 0xC0)
    ((readByte bytes (i + 1)).bind fun b1 => .ok (isContinuation b1))

/-- Condition of lines 25-27:
`(c & 0xF0) == 0xE0 && (bytes[i+1] & 0xC0) == 0x80 && (bytes[i+2] & 0xC0) == 0x80`. -/
def threeByteTest (bytes : List Nat) (i c : Nat) : Outcome Bool :=
  andAlso (c &&& 0xF0 == 0xE0)
    ((readByte bytes (i + 1)).bind fun b1 =>
      andAlso (isContinuation b1)
        ((readByte bytes (i + 2)).bind fun b2 => .ok (isContinuation b2)))

/-- Condition of lines 32-35:
`(c & 0xF8) == 0xF0 && (bytes[i+1] & 0xC0) == 0x80 && (bytes[i+2] & 0xC0) == 0x80 &&
(bytes[i+3] & 0xC0) == 0x80`. -/
def fourByteTest (bytes : List Nat) (i c : Nat) : Outcome Bool :=
  andAlso (c &&& 0xF8 == 0xF0)
    ((readByte bytes (i + 1)).bind fun b1 =>
      andAlso (isContinuation b1)
        ((readByte bytes (i + 2)).bind fun b2 =>
          andAlso (isContinuation b2)
            ((readByte bytes (i + 3)).bind fun b3 => .ok (isContinuation b3))))

/-- Append the bytes `bytes[i] .. bytes[i+k-1]` to `result`, one checked read per byte
(`result += static_cast<char>(bytes[i+j])`). -/
def copyBytes (bytes : List Nat) (i : Nat) : Nat → List Nat → Outcome (List Nat)
  | 0, result => .ok result
  | k + 1, result => (readByte bytes i).bind fun b => copyBytes bytes (i + 1) k (result ++ [b])

/-- One iteration of the `while` loop body (lines 16-44): returns the new `result` and the
new index `i`. -/
def loopBody (bytes : List Nat) (i : Nat) (result : List Nat) : Outcome (List Nat × Nat) :=
  (readByte bytes i).bind fun c =>
    if c ≤ 0x7F then
      .ok (result ++ [c], i + 1)
    else (twoByteTest bytes i c).bind fun t2 =>
      if t2 then
        (copyBytes bytes i 2 result).bind fun r => .ok (r, i + 2)
      else (threeByteTest bytes i c).bind fun t3 =>
        if t3 then
          (copyBytes bytes i 3 result).bind fun r => .ok (r, i + 3)
        else (fourByteTest bytes i c).bind fun t4 =>
          if t4 then
            (copyBytes bytes i 4 result).bind fun r => .ok (r, i + 4)
          else
            .ok (result ++ [0x3F], i + 1)

/-- The loop `while (bytes[i] != 0) { ... }` of lines 15-45.  `fuel` bounds the number of
executions of the loop body. -/
def sanitizeLoop (bytes : List Nat) : Nat → Nat → List Nat → Outcome (List Nat)
  | 0, i, result =>
    (readByte bytes i).bind fun b =>
      if b = 0 then .ok result else .outOfFuel
  | fuel + 1, i, result =>
    (readByte bytes i).bind fun b =>
      if b = 0 then .ok result
      else (loopBody bytes i result).bind fun st => sanitizeLoop bytes fuel st.2 st.1

/-- Model of `std::string sanitize_utf8_for_jni(const char* text)`.  `none` is the null pointer,
`some bytes` a pointer to the buffer `bytes`.  (`result.reserve(strlen(text))` only sets the
capacity of `result` and is not modelled.)  Every executed loop body advances `i` and a read
at or past `bytes.length` is `outOfBounds`, so `bytes.length` body executions always suffice. -/
def sanitize_utf8_for_jni (text : Option (List Nat)) : Outcome (List Nat) :=
  match text with
  | none => .ok []
  | some bytes => sanitizeLoop bytes bytes.length 0 []

/-- The first zero byte of `bytes` is at index `n` (so `bytes` holds a NUL-terminated string whose
content is the `n` bytes before it). -/
def FirstZeroAt (bytes : List Nat) (n : Nat) : Prop :=
  bytes[n]? = some 0 ∧ ∀ b ∈ bytes.take n, b ≠ 0

instance (bytes : List Nat) (n : Nat) : Decidable (FirstZeroAt bytes n) := by
  unfold FirstZeroAt; infer_instance


/-- What one execution of the loop body at index `i` appends to `result`: `Step bytes i u` says
that `u` is a possible appended chunk, together with the branch of the source that produced it. -/
inductive Step (bytes : List Nat) (i : Nat) : List Nat → Prop where
  | ascii (c : Nat) : bytes[i]? = some c → c ≠ 0 → c ≤ 0x7F → Step bytes i [c]
  | two (c b1 : Nat) : bytes[i]? = some c → 0x7F < c → c &&& 0xE0 = 0xC0 →
      bytes[i + 1]? = some b1 → isContinuation b1 = true → Step bytes i [c, b1]
  | three (c b1 b2 : Nat) : bytes[i]? = some c → 0x7F < c → c &&& 0xF0 = 0xE0 →
      bytes[i + 1]? = some b1 → isContinuation b1 = true →
      bytes[i + 2]? = some b2 → isContinuation b2 = true → Step bytes i [c, b1, b2]
  | four (c b1 b2 b3 : Nat) : bytes[i]? = some c → 0x7F < c → c &&& 0xF8 = 0xF0 →
      bytes[i + 1]? = some b1 → isContinuation b1 = true →
      bytes[i + 2]? = some b2 → isContinuation b2 = true →
      bytes[i + 3]? = some b3 → isContinuation b3 = true → Step bytes i [c, b1, b2, b3]
  | replace (c : Nat) : bytes[i]? = some c → 0x7F < c → Step bytes i [0x3F]


/-- Structural well-formedness, the property the code establishes: the bytes split into chunks
that are a non-zero byte `<= 0x7F`, or a lead byte `110xxxxx` / `1110xxxx` / `11110xxx` followed
by exactly one / two / three continuation bytes `10xxxxxx`.  The payload bits are not
constrained (overlong forms, surrogates and values above U+10FFFF are chunks too). -/
inductive StructurallyWellFormed : List Nat → Prop where
  | nil : StructurallyWellFormed []
  | ascii (c : Nat) (rest : List Nat) : c ≠ 0 → c ≤ 0x7F →
      StructurallyWellFormed rest → StructurallyWellFormed (c :: rest)
  | two (c b1 : Nat) (rest : List Nat) : c &&& 0xE0 = 0xC0 → isContinuation b1 = true →
      StructurallyWellFormed rest → StructurallyWellFormed (c :: b1 :: rest)
  | three (c b1 b2 : Nat) (rest : List Nat) : c &&& 0xF0 = 0xE0 →
      isContinuation b1 = true → isContinuation b2 = true →
      StructurallyWellFormed rest → StructurallyWellFormed (c :: b1 :: b2 :: rest)
  | four (c b1 b2 b3 : Nat) (rest : List Nat) : c &&& 0xF8 = 0xF0 →
      isContinuation b1 = true → isContinuation b2 = true → isContinuation b3 = true →
      StructurallyWellFormed rest → StructurallyWellFormed (c :: b1 :: b2 :: b3 :: rest)

/-- Unicode scalar values: code points up to U+10FFFF that are not surrogates. -/
def isScalarValue (cp : Nat) : Prop := cp < 0xD800 ∨ (0xDFFF < cp ∧ cp ≤ 0x10FFFF)

instance (cp : Nat) : Decidable (isScalarValue cp) := by
  unfold isScalarValue; infer_instance

/-- The UTF-8 encoding of a code point (Unicode Standard, Table 3-6), written with division and
remainder for the shifts and masks: `cp / 64 = cp >> 6`, `cp % 64 = cp & 0x3F`. -/
def utf8Encode (cp : Nat) : List Nat :=
  if cp < 0x80 then [cp]
  else if cp < 0x800 then [0xC0 + cp / 64, 0x80 + cp % 64]
  else if cp < 0x10000 then [0xE0 + cp / 4096, 0x80 + cp / 64 % 64, 0x80 + cp % 64]
  else [0xF0 + cp / 262144, 0x80 + cp / 4096 % 64, 0x80 + cp / 64 % 64, 0x80 + cp % 64]

/-- Well-formed UTF-8: the bytes are the concatenated encodings of Unicode scalar values.  Since
each scalar value is encoded by `utf8Encode` in its shortest form, this excludes overlong
encodings, encoded surrogates and encoded values above U+10FFFF. -/
def ValidUtf8 (bs : List Nat) : Prop :=
  ∃ cps : List Nat, (∀ cp ∈ cps, isScalarValue cp) ∧ bs = cps.flatMap utf8Encode

end rnbridge

/-! ## The Java side of the JNI boundary

Java objects are modelled by what the helpers of `jni-utils.h` can observe of them.  `D` is the
type of `jdouble` values; the helpers never compute with them. -/

namespace jni

open rnbridge

/-- A Java object behind a non-null `jobject`. -/
inductive JObject (D : Type) where
  /-- A `java.lang.String`, identified by the bytes it was built from by `NewStringUTF`. -/
  | string (utf : List Nat)
  /-- An instance of `java.lang.Number`, with the results of its `intValue()`, `longValue()` and
  `doubleValue()` methods. -/
  | number (intValue : Int) (longValue : Int) (doubleValue : D)
  /-- A `java.lang.Boolean`, with the result of `booleanValue()`. -/
  | boolean (booleanValue : Bool)
  /-- An object of any other class. -/
  | other (tag : Nat)

/-- A `jobject` reference: `none` is `nullptr`. -/
abbrev jobject (D : Type) := Option (JObject D)

/-- `IsInstanceOf(value, FindClass("java/lang/Number"))` for a non-null `value`. -/
def JObject.isNumber {D : Type} : JObject D → Bool
  | .number _ _ _ => true
  | _ => false

/-- `IsInstanceOf(value, FindClass("java/lang/Boolean"))` for a non-null `value`. -/
def JObject.isBoolean {D : Type} : JObject D → Bool
  | .boolean _ => true
  | _ => false

/-- A `java.util.Map` with string keys, seen through the methods the helpers call on it:
`containsKey(key)` and `get(key)`.  Keys are Java strings, identified by their bytes.  The two
methods are independent, so a key may be present with a null value. -/
structure JMap (D : Type) where
  containsKey : List Nat → Bool
  get : List Nat → jobject D

/-- Method `put(key, value)` of the map. -/
def JMap.put {D : Type} (m : JMap D) (key : List Nat) (value : jobject D) : JMap D where
  containsKey := fun k => if k = key then true else m.containsKey k
  get := fun k => if k = key then value else m.get k

/-- `env->NewStringUTF(p)`: the Java string built from the bytes of the C string `p` up to its
terminator.  A buffer without a terminator is read out of bounds. -/
def NewStringUTF (p : List Nat) : Outcome (List Nat) :=
  if 0 ∈ p then .ok (p.takeWhile (· ≠ 0)) else .outOfBounds

/-- `std::string::c_str()`: the characters of the string followed by a terminator. -/
def c_str (s : List Nat) : List Nat := s ++ [0]

/-- Effect of a call of a writer helper: the container after the call (`none` for a null
container) and the C strings handed to `NewStringUTF`, in call order. -/
structure Written (α : Type) where
  container : Option α
  newStringUTFArgs : List (List Nat)

end jni

namespace jnihelpers

open rnbridge jni

/-- Model of `jnihelpers::mapContainsKey(env, map, key)`. -/
def mapContainsKey {D : Type} (map : Option (JMap D)) (key : List Nat) : Outcome Bool :=
  match map with
  | none => .ok false
  | some m => (NewStringUTF key).bind fun jKey => .ok (m.containsKey jKey)

/-- Model of `jnihelpers::mapGet(env, map, key)`. -/
def mapGet {D : Type} (map : Option (JMap D)) (key : List Nat) : Outcome (jobject D) :=
  match map with
  | none => .ok none
  | some m => (NewStringUTF key).bind fun jKey => .ok (m.get jKey)

end jnihelpers

namespace maputils

open rnbridge jni

/-- Model of `maputils::putString(env, map, key, value)`; `value` is `none` for a null
pointer. -/
def putString {D : Type} (map : Option (JMap D)) (key : List Nat) (value : Option (List Nat)) :
    Outcome (Written (JMap D)) :=
  match map with
  | none => .ok ⟨none, []⟩
  | some m =>
    (NewStringUTF key).bind fun jKey =>
      (sanitize_utf8_for_jni value).bind fun sanitized =>
        (NewStringUTF (c_str sanitized)).bind fun jValue =>
          .ok ⟨some (m.put jKey (some (.string jValue))), [key, c_str sanitized]⟩

end maputils

namespace listutils

open rnbridge jni

/-- Model of `listutils::pushString(env, arr, value)`; the `java.util.ArrayList` is the list of
its elements and `add` appends. -/
def pushString {D : Type} (arr : Option (List (jobject D))) (value : Option (List Nat)) :
    Outcome (Written (List (jobject D))) :=
  match arr with
  | none => .ok ⟨none, []⟩
  | some elems =>
    (sanitize_utf8_for_jni value).bind fun sanitized =>
      (NewStringUTF (c_str sanitized)).bind fun jValue =>
        .ok ⟨some (elems ++ [some (.string jValue)]), [c_str sanitized]⟩

end listutils

namespace mapreader

open rnbridge jni

/-- Model of `mapreader::hasKey`. -/
def hasKey {D : Type} (readableMap : Option (JMap D)) (key : List Nat) : Outcome Bool :=
  jnihelpers.mapContainsKey readableMap key

/-- Model of `mapreader::getInt`.  `jint` and `int` are both 32-bit, so no conversion. -/
def getInt {D : Type} (readableMap : Option (JMap D)) (key : List Nat) (defaultValue : Int) :
    Outcome Int :=
  (hasKey readableMap key).bind fun has =>
    if !has then .ok defaultValue
    else (jnihelpers.mapGet readableMap key).bind fun value =>
      match value with
      | none => .ok defaultValue
      | some obj =>
        match obj with
        | .number intValue _ _ => .ok intValue
        | _ => .ok defaultValue

/-- Model of `mapreader::getBool`; a `jboolean` is a `Bool`. -/
def getBool {D : Type} (readableMap : Option (JMap D)) (key : List Nat) (defaultValue : Bool) :
    Outcome Bool :=
  (hasKey readableMap key).bind fun has =>
    if !has then .ok defaultValue
    else (jnihelpers.mapGet readableMap key).bind fun value =>
      match value with
      | none => .ok defaultValue
      | some obj =>
        match obj with
        | .boolean booleanValue => .ok booleanValue
        | _ => .ok defaultValue

/-- Model of `mapreader::getLong`, for targets where `long` is as wide as `jlong` (64 bits). -/
def getLong {D : Type} (readableMap : Option (JMap D)) (key : List Nat) (defaultValue : Int) :
    Outcome Int :=
  (hasKey readableMap key).bind fun has =>
    if !has then .ok defaultValue
    else (jnihelpers.mapGet readableMap key).bind fun value =>
      match value with
      | none => .ok defaultValue
      | some obj =>
        match obj with
        | .number _ longValue _ => .ok longValue
        | _ => .ok defaultValue

/-- Model of `mapreader::getFloat`; `F` is the type of `jfloat` values and `toFloat` the
conversion `static_cast<float>` from `jdouble`. -/
def getFloat {D F : Type} (toFloat : D → F) (readableMap : Option (JMap D)) (key : List Nat)
    (defaultValue : F) : Outcome F :=
  (hasKey readableMap key).bind fun has =>
    if !has then .ok defaultValue
    else (jnihelpers.mapGet readableMap key).bind fun value =>
      match value with
      | none => .ok defaultValue
      | some obj =>
        match obj with
        | .number _ _ doubleValue => .ok (toFloat doubleValue)
        | _ => .ok defaultValue

/-- A sample map: the key `n` holds a `Number`, the key `z` is present with a null value. -/
def exampleMap : JMap Int where
  containsKey := fun k => k == [0x6E] || k == [0x7A]
  get := fun k => if k = [0x6E] then some (.number 7 7 7) else none

end mapreader

/-! ## The request scheduler behind `RNLlamaContext`

`ios/RNLlamaContext.h` only declares `queueCompletion`, `queueEmbedding`, `queueRerank`,
`cancelRequest` and `enableParallelMode`; their bodies are not part of the sources at hand. -/

namespace RNLlamaContext

/-- Modelled from the spec: the kinds of Request of section 3 (the Request record itself is
missing from the sources). -/
inductive RequestKind where
  | completion
  | embedding
  | rerank
  | tokenize
  deriving DecidableEq

/-- Modelled from the spec: the `RequestState` enumeration of section 3. -/
inductive RequestState where
  | queued
  | running
  | streaming
  | completed
  | cancelled
  | failed
  deriving DecidableEq

/-- Modelled from the spec: the states in which a Request holds the execution right, Running and
Streaming. -/
def RequestState.isActive : RequestState → Bool
  | .running => true
  | .streaming => true
  | _ => false

/-- Modelled from the spec: the terminal states Completed, Cancelled and Failed. -/
def RequestState.isTerminal : RequestState → Bool
  | .completed => true
  | .cancelled => true
  | .failed => true
  | _ => false

/-- Modelled from the spec: a Request of section 3 with its CancelFlag; `batchUsage` is the
batch capacity the request needs. -/
structure Request where
  id : Nat
  kind : RequestKind
  batchUsage : Nat
  state : RequestState
  cancelFlag : Bool
  deriving DecidableEq

/-- Modelled from the spec: the Slot pool of section 3, `nParallel` slots sharing `nBatch` batch
capacity. -/
structure SlotPool where
  nParallel : Int
  nBatch : Int
  deriving DecidableEq

/-- Modelled from the spec: the state of the scheduler owning one Context: every Request in
enqueue order, the next fresh id, the Slot pool (`none` in non-parallel mode) and whether a load
or attach operation is in progress. -/
structure Scheduler where
  requests : List Request
  nextId : Nat
  slotPool : Option SlotPool
  lifecycleBusy : Bool
  deriving DecidableEq

/-- Modelled from the spec: a freshly loaded context, in non-parallel mode and without
requests. -/
def Scheduler.initial : Scheduler :=
  { requests := [], nextId := 1, slotPool := none, lifecycleBusy := false }

/-- Modelled from the spec: the number of Requests in state Running or Streaming (the quantity
bounded by the dispatch policy of section 4.3). -/
def Scheduler.activeCount (s : Scheduler) : Nat :=
  s.requests.countP fun r => r.state.isActive

/-- Modelled from the spec: the batch capacity used by the Requests in state Running or Streaming
(the sum bounded by `nBatch` in the Slot invariant of section 3). -/
def Scheduler.usedBatch (s : Scheduler) : Nat :=
  ((s.requests.filter fun r => r.state.isActive).map fun r => r.batchUsage).sum

/-- Modelled from the spec: `enqueue` of section 4.3 (the body shared by `queueCompletion`,
`queueEmbedding` and `queueRerank`): assigns a fresh id, stores the Request in state Queued and
returns the id at once. -/
def enqueue (s : Scheduler) (kind : RequestKind) (batchUsage : Nat) : Nat × Scheduler :=
  (s.nextId,
    { s with
      requests := s.requests ++
        [{ id := s.nextId, kind := kind, batchUsage := batchUsage, state := .queued,
           cancelFlag := false }]
      nextId := s.nextId + 1 })

/-- Modelled from the spec: `queueCompletion:onToken:onComplete:`, an `enqueue` of a Completion
request. -/
def queueCompletion (s : Scheduler) (batchUsage : Nat) : Nat × Scheduler :=
  enqueue s .completion batchUsage

/-- Modelled from the spec: `queueEmbedding:params:onResult:`, an `enqueue` of an Embedding
request. -/
def queueEmbedding (s : Scheduler) (batchUsage : Nat) : Nat × Scheduler :=
  enqueue s .embedding batchUsage

/-- Modelled from the spec: `queueRerank:documents:params:onResults:`, an `enqueue` of a Rerank
request. -/
def queueRerank (s : Scheduler) (batchUsage : Nat) : Nat × Scheduler :=
  enqueue s .rerank batchUsage

/-- Modelled from the spec: `cancelRequest:`, the `cancel(id)` of section 4.3: sets the
CancelFlag of the Request with that id; a no-op on an unknown or terminal id.  It only touches
registry state, never the state of a Request. -/
def cancelRequest (s : Scheduler) (id : Nat) : Scheduler :=
  { s with
    requests := s.requests.map fun r =>
      if r.id = id ∧ r.state.isTerminal = false then { r with cancelFlag := true } else r }

/-- Modelled from the spec: the dispatch checkpoint of section 4.3 applied to the first Queued
request in FIFO order: a request whose CancelFlag is set becomes Cancelled without any engine
call, otherwise it becomes Running. -/
def dispatchFirst : List Request → List Request
  | [] => []
  | r :: rest =>
    if r.state = .queued then
      (if r.cancelFlag then { r with state := .cancelled } else { r with state := .running })
        :: rest
    else r :: dispatchFirst rest

/-- Modelled from the spec: the first Queued request in FIFO order, if any. -/
def nextQueued (requests : List Request) : Option Request :=
  requests.find? fun r => r.state = .queued

/-- Modelled from the spec: the dispatch policy of section 4.3.  In non-parallel mode a request
may be dispatched only while no Request is Running or Streaming; in parallel mode while a slot
is free and the batch capacity suffices for the next queued request. -/
def mayDispatch (s : Scheduler) : Bool :=
  match s.slotPool with
  | none => s.activeCount == 0
  | some pool =>
    match nextQueued s.requests with
    | none => false
    | some r =>
      decide ((s.activeCount : Int) < pool.nParallel ∧
        ((s.usedBatch + r.batchUsage : Nat) : Int) ≤ pool.nBatch)

/-- Modelled from the spec: one dispatch step of the dispatch loop. -/
def dispatch (s : Scheduler) : Scheduler :=
  if mayDispatch s then { s with requests := dispatchFirst s.requests } else s

/-- Modelled from the spec: what the compute engine reports for one step of a dispatched
request: a token was produced, the request finished, or the engine failed. -/
inductive EngineOutcome where
  | token
  | finished
  | error
  deriving DecidableEq

/-- Modelled from the spec: the state transition of a Running or Streaming request at its next
checkpoint (section 4.3): a set CancelFlag makes it Cancelled; otherwise a token makes a
Completion request Streaming, completion makes it Completed and an engine failure Failed. -/
def advanceRequest (outcome : EngineOutcome) (r : Request) : Request :=
  if r.state.isActive then
    if r.cancelFlag then { r with state := .cancelled }
    else
      match outcome with
      | .token => if r.kind = .completion then { r with state := .streaming } else r
      | .finished => { r with state := .completed }
      | .error => { r with state := .failed }
  else r

/-- Modelled from the spec: the dispatch loop drives the request `id` through one checkpoint. -/
def advance (s : Scheduler) (id : Nat) (outcome : EngineOutcome) : Scheduler :=
  { s with
    requests := s.requests.map fun r => if r.id = id then advanceRequest outcome r else r }

/-- Modelled from the spec: the events observed on a scheduler: the calls of the caller and the
steps of the dispatch loop, interleaved in any order. -/
inductive Event where
  | queueCompletion (batchUsage : Nat)
  | queueEmbedding (batchUsage : Nat)
  | queueRerank (batchUsage : Nat)
  | cancelRequest (id : Nat)
  | dispatch
  | advance (id : Nat) (outcome : EngineOutcome)
  deriving DecidableEq

/-- Modelled from the spec: the effect of one event on the scheduler. -/
def step (s : Scheduler) : Event → Scheduler
  | .queueCompletion b => (queueCompletion s b).2
  | .queueEmbedding b => (queueEmbedding s b).2
  | .queueRerank b => (queueRerank s b).2
  | .cancelRequest id => cancelRequest s id
  | .dispatch => dispatch s
  | .advance id outcome => advance s id outcome

/-- Modelled from the spec: the scheduler after a sequence of events. -/
def run (s : Scheduler) (events : List Event) : Scheduler :=
  events.foldl step s

/-- Modelled from the spec: `enableParallelMode:nBatch:` of section 4.2: returns false, leaving
the scheduler as it is, if the parameters are invalid (`nParallel <= 0`, `nBatch < nParallel`),
if a load or attach is in progress, or if a request is Running or Streaming; otherwise
allocates the Slot pool and returns true. -/
def enableParallelMode (s : Scheduler) (nParallel nBatch : Int) : Bool × Scheduler :=
  if nParallel ≤ 0 ∨ nBatch < nParallel then (false, s)
  else if s.lifecycleBusy then (false, s)
  else if s.activeCount ≠ 0 then (false, s)
  else (true, { s with slotPool := some { nParallel := nParallel, nBatch := nBatch } })

end RNLlamaContext

/-! # Theorems -/

namespace rnbridge

@[simp] theorem Outcome.bind_ok {α β : Type} (a : α) (f : α → Outcome β) :
    (Outcome.ok a).bind f = f a := rfl

theorem readByte_eq {bytes : List Nat} {i b : Nat} (h : bytes[i]? = some b) :
    readByte bytes i = .ok b := by
  simp [readByte, h]

theorem isContinuation_ne_zero {b : Nat} (h : isContinuation b = true) : b ≠ 0 := by
  rintro rfl
  simp [isContinuation] at h

theorem FirstZeroAt.lt_length {bytes : List Nat} {n : Nat} (h : FirstZeroAt bytes n) :
    n < bytes.length := by
  have := h.1
  by_contra hcon
  simp [List.getElem?_eq_none (Nat.le_of_not_lt hcon)] at this

theorem FirstZeroAt.nonzero {bytes : List Nat} {n : Nat} (h : FirstZeroAt bytes n) (i : Nat)
    (hi : i < n) : ∃ c, bytes[i]? = some c ∧ c ≠ 0 := by
  have hlen := h.lt_length
  have hil : i < bytes.length := by omega
  refine ⟨bytes[i], by simp [hil], h.2 _ ?_⟩
  rw [List.mem_take_iff_getElem]
  exact ⟨i, by simp; omega, rfl⟩

theorem FirstZeroAt.read {bytes : List Nat} {n i : Nat} (h : FirstZeroAt bytes n) (hi : i ≤ n) :
    ∃ b, bytes[i]? = some b ∧ (b ≠ 0 → i < n) := by
  rcases Nat.lt_or_ge i n with hlt | hge
  · obtain ⟨c, hc, _⟩ := h.nonzero i hlt
    exact ⟨c, hc, fun _ => hlt⟩
  · have : i = n := le_antisymm hi hge
    subst this
    exact ⟨0, h.1, fun h0 => absurd rfl h0⟩

theorem twoByteTest_spec {bytes : List Nat} {n i c : Nat} (h : FirstZeroAt bytes n) (hi : i < n) :
    ∃ t, twoByteTest bytes i c = .ok t ∧
      (t = true → c &&& 0xE0 = 0xC0 ∧
        ∃ b1, bytes[i + 1]? = some b1 ∧ isContinuation b1 = true ∧ i + 1 < n) := by
  obtain ⟨b1, hb1, hlt1⟩ := h.read (i := i + 1) hi
  by_cases hc : c &&& 0xE0 = 0xC0
  · refine ⟨isContinuation b1, by simp [twoByteTest, andAlso, hc, readByte_eq hb1], fun ht => ?_⟩
    exact ⟨hc, b1, hb1, ht, hlt1 (isContinuation_ne_zero ht)⟩
  · exact ⟨false, by simp [twoByteTest, andAlso, hc], by simp⟩

theorem threeByteTest_spec {bytes : List Nat} {n i c : Nat} (h : FirstZeroAt bytes n)
    (hi : i < n) :
    ∃ t, threeByteTest bytes i c = .ok t ∧
      (t = true → c &&& 0xF0 = 0xE0 ∧
        ∃ b1 b2, bytes[i + 1]? = some b1 ∧ isContinuation b1 = true ∧
          bytes[i + 2]? = some b2 ∧ isContinuation b2 = true ∧ i + 2 < n) := by
  obtain ⟨b1, hb1, hlt1⟩ := h.read (i := i + 1) hi
  by_cases hc : c &&& 0xF0 = 0xE0
  · by_cases h1 : isContinuation b1 = true
    · have hi1 := hlt1 (isContinuation_ne_zero h1)
      obtain ⟨b2, hb2, hlt2⟩ := h.read (i := i + 2) hi1
      refine ⟨isContinuation b2,
        by simp [threeByteTest, andAlso, hc, readByte_eq hb1, readByte_eq hb2, h1], fun ht => ?_⟩
      exact ⟨hc, b1, b2, hb1, h1, hb2, ht, hlt2 (isContinuation_ne_zero ht)⟩
    · exact ⟨false, by simp [threeByteTest, andAlso, hc, readByte_eq hb1, h1], by simp⟩
  · exact ⟨false, by simp [threeByteTest, andAlso, hc], by simp⟩

theorem fourByteTest_spec {bytes : List Nat} {n i c : Nat} (h : FirstZeroAt bytes n)
    (hi : i < n) :
    ∃ t, fourByteTest bytes i c = .ok t ∧
      (t = true → c &&& 0xF8 = 0xF0 ∧
        ∃ b1 b2 b3, bytes[i + 1]? = some b1 ∧ isContinuation b1 = true ∧
          bytes[i + 2]? = some b2 ∧ isContinuation b2 = true ∧
          bytes[i + 3]? = some b3 ∧ isContinuation b3 = true ∧ i + 3 < n) := by
  obtain ⟨b1, hb1, hlt1⟩ := h.read (i := i + 1) hi
  by_cases hc : c &&& 0xF8 = 0xF0
  · by_cases h1 : isContinuation b1 = true
    · have hi1 := hlt1 (isContinuation_ne_zero h1)
      obtain ⟨b2, hb2, hlt2⟩ := h.read (i := i + 2) hi1
      by_cases h2 : isContinuation b2 = true
      · have hi2 := hlt2 (isContinuation_ne_zero h2)
        obtain ⟨b3, hb3, hlt3⟩ := h.read (i := i + 3) hi2
        refine ⟨isContinuation b3,
          by simp [fourByteTest, andAlso, hc, readByte_eq hb1, readByte_eq hb2,
            readByte_eq hb3, h1, h2], fun ht => ?_⟩
        exact ⟨hc, b1, b2, b3, hb1, h1, hb2, h2, hb3, ht, hlt3 (isContinuation_ne_zero ht)⟩
      · exact ⟨false,
          by simp [fourByteTest, andAlso, hc, readByte_eq hb1, readByte_eq hb2, h1, h2],
          by simp⟩
    · exact ⟨false, by simp [fourByteTest, andAlso, hc, readByte_eq hb1, h1], by simp⟩
  · exact ⟨false, by simp [fourByteTest, andAlso, hc], by simp⟩

/-- Every execution of the loop body inside a NUL-terminated buffer succeeds, appends one chunk
described by `Step`, and advances the index by the length of that chunk without passing the
terminator. -/
theorem loopBody_spec {bytes : List Nat} {n i : Nat} (h : FirstZeroAt bytes n) (hi : i < n)
    (result : List Nat) :
    ∃ u, loopBody bytes i result = .ok (result ++ u, i + u.length) ∧
      i + u.length ≤ n ∧ Step bytes i u := by
  obtain ⟨c, hc, hc0⟩ := h.nonzero i hi
  by_cases hascii : c ≤ 0x7F
  · exact ⟨[c], by simp [loopBody, readByte_eq hc, hascii], by simpa using hi,
      .ascii c hc hc0 hascii⟩
  have hhi : 0x7F < c := Nat.lt_of_not_ge hascii
  obtain ⟨t2, ht2, h2⟩ := twoByteTest_spec (c := c) h hi
  cases t2 with
  | true =>
    obtain ⟨hm, b1, hb1, hk1, hlt⟩ := h2 rfl
    refine ⟨[c, b1], ?_, by simpa using hlt, .two c b1 hc hhi hm hb1 hk1⟩
    simp [loopBody, copyBytes, readByte_eq hc, readByte_eq hb1, hascii, ht2]
  | false =>
    obtain ⟨t3, ht3, h3⟩ := threeByteTest_spec (c := c) h hi
    cases t3 with
    | true =>
      obtain ⟨hm, b1, b2, hb1, hk1, hb2, hk2, hlt⟩ := h3 rfl
      refine ⟨[c, b1, b2], ?_, by simpa using hlt, .three c b1 b2 hc hhi hm hb1 hk1 hb2 hk2⟩
      simp [loopBody, copyBytes, readByte_eq hc, readByte_eq hb1, readByte_eq hb2, hascii,
        ht2, ht3]
    | false =>
      obtain ⟨t4, ht4, h4⟩ := fourByteTest_spec (c := c) h hi
      cases t4 with
      | true =>
        obtain ⟨hm, b1, b2, b3, hb1, hk1, hb2, hk2, hb3, hk3, hlt⟩ := h4 rfl
        refine ⟨[c, b1, b2, b3], ?_, by simpa using hlt,
          .four c b1 b2 b3 hc hhi hm hb1 hk1 hb2 hk2 hb3 hk3⟩
        simp [loopBody, copyBytes, readByte_eq hc, readByte_eq hb1, readByte_eq hb2,
          readByte_eq hb3, hascii, ht2, ht3, ht4]
      | false =>
        exact ⟨[0x3F], by simp [loopBody, readByte_eq hc, hascii, ht2, ht3, ht4],
          by simpa using hi, .replace c hc hhi⟩

/-- Hoare-style rule for the loop: an invariant `P i result` preserved by every body execution
inside the string holds at the terminator, and `n - i` body executions suffice. -/
theorem sanitizeLoop_invariant {bytes : List Nat} {n : Nat} (h : FirstZeroAt bytes n)
    (P : Nat → List Nat → Prop)
    (hstep : ∀ i result, i < n → P i result →
      ∃ r j, loopBody bytes i result = .ok (r, j) ∧ i < j ∧ j ≤ n ∧ P j r) :
    ∀ fuel i result, i ≤ n → n - i ≤ fuel → P i result →
      ∃ r, sanitizeLoop bytes fuel i result = .ok r ∧ P n r := by
  intro fuel
  induction fuel with
  | zero =>
    intro i result hi hfuel hP
    have : i = n := by omega
    subst this
    exact ⟨result, by simp [sanitizeLoop, readByte_eq h.1], hP⟩
  | succ fuel ih =>
    intro i result hi hfuel hP
    rcases Nat.lt_or_ge i n with hlt | hge
    · obtain ⟨c, hc, hc0⟩ := h.nonzero i hlt
      obtain ⟨r, j, hbody, hij, hjn, hPj⟩ := hstep i result hlt hP
      obtain ⟨r', hr', hP'⟩ := ih j r hjn (by omega) hPj
      exact ⟨r', by simp [sanitizeLoop, readByte_eq hc, hc0, hbody, hr'], hP'⟩
    · have : i = n := by omega
      subst this
      exact ⟨result, by simp [sanitizeLoop, readByte_eq h.1], hP⟩

/-- The function returns on every NUL-terminated buffer, and an invariant established by the
steps of the loop holds of the returned string. -/
theorem sanitize_invariant {bytes : List Nat} {n : Nat} (h : FirstZeroAt bytes n)
    (P : Nat → List Nat → Prop) (h0 : P 0 [])
    (hstep : ∀ i result u, i < n → P i result → Step bytes i u → i + u.length ≤ n →
      P (i + u.length) (result ++ u)) :
    ∃ r, sanitize_utf8_for_jni (some bytes) = .ok r ∧ P n r := by
  have hlen := h.lt_length
  refine sanitizeLoop_invariant h P ?_ bytes.length 0 [] (Nat.zero_le _) (by omega) h0
  intro i result hi hP
  obtain ⟨u, hbody, hle, hu⟩ := loopBody_spec h hi result
  refine ⟨result ++ u, i + u.length, hbody, ?_, hle, hstep i result u hi hP hu hle⟩
  cases hu <;> simp


theorem FirstZeroAt.take {bytes : List Nat} {n : Nat} (h : FirstZeroAt bytes n) :
    FirstZeroAt (bytes.take (n + 1)) n := by
  refine ⟨?_, ?_⟩
  · rw [List.getElem?_take_of_lt (Nat.lt_succ_self n)]; exact h.1
  · rw [List.take_take, Nat.min_eq_left (Nat.le_succ n)]; exact h.2

theorem firstZeroAt_append (s tail : List Nat) (hs : ∀ b ∈ s, b ≠ 0) :
    FirstZeroAt (s ++ 0 :: tail) s.length := by
  refine ⟨by rw [List.getElem?_append_right (le_refl _)]; simp, ?_⟩
  simpa using hs

theorem StructurallyWellFormed.append {a b : List Nat} (ha : StructurallyWellFormed a)
    (hb : StructurallyWellFormed b) : StructurallyWellFormed (a ++ b) := by
  induction ha with
  | nil => simpa using hb
  | ascii c rest h0 h1 _ ih => exact .ascii c _ h0 h1 ih
  | two c b1 rest h0 h1 _ ih => exact .two c b1 _ h0 h1 ih
  | three c b1 b2 rest h0 h1 h2 _ ih => exact .three c b1 b2 _ h0 h1 h2 ih
  | four c b1 b2 b3 rest h0 h1 h2 h3 _ ih => exact .four c b1 b2 b3 _ h0 h1 h2 h3 ih

theorem Step.wellFormed {bytes : List Nat} {i : Nat} {u : List Nat} (h : Step bytes i u) :
    StructurallyWellFormed u := by
  cases h with
  | ascii c hc h0 h1 => exact .ascii c [] h0 h1 .nil
  | two c b1 hc hhi hm hb1 hk1 => exact .two c b1 [] hm hk1 .nil
  | three c b1 b2 hc hhi hm hb1 hk1 hb2 hk2 => exact .three c b1 b2 [] hm hk1 hk2 .nil
  | four c b1 b2 b3 hc hhi hm hb1 hk1 hb2 hk2 hb3 hk3 =>
    exact .four c b1 b2 b3 [] hm hk1 hk2 hk3 .nil
  | replace c hc hhi => exact .ascii 0x3F [] (by decide) (by decide) .nil

/-- The returned string is structurally well formed. -/
theorem sanitize_wellFormed {bytes : List Nat} {n : Nat} (h : FirstZeroAt bytes n) :
    ∃ r, sanitize_utf8_for_jni (some bytes) = .ok r ∧ StructurallyWellFormed r :=
  sanitize_invariant h (fun _ result => StructurallyWellFormed result) .nil
    (fun _ _ _ _ hP hu _ => hP.append hu.wellFormed)

theorem StructurallyWellFormed.ne_zero {s : List Nat} (h : StructurallyWellFormed s) :
    ∀ b ∈ s, b ≠ 0 := by
  induction h with
  | nil => simp
  | ascii c rest h0 h1 _ ih =>
    intro b hb
    rcases List.mem_cons.1 hb with rfl | hb
    · exact h0
    · exact ih b hb
  | two c b1 rest h0 h1 _ ih =>
    intro b hb
    simp only [List.mem_cons] at hb
    rcases hb with rfl | rfl | hb
    · rintro rfl; simp at h0
    · exact isContinuation_ne_zero h1
    · exact ih b hb
  | three c b1 b2 rest h0 h1 h2 _ ih =>
    intro b hb
    simp only [List.mem_cons] at hb
    rcases hb with rfl | rfl | rfl | hb
    · rintro rfl; simp at h0
    · exact isContinuation_ne_zero h1
    · exact isContinuation_ne_zero h2
    · exact ih b hb
  | four c b1 b2 b3 rest h0 h1 h2 h3 _ ih =>
    intro b hb
    simp only [List.mem_cons] at hb
    rcases hb with rfl | rfl | rfl | rfl | hb
    · rintro rfl; simp at h0
    · exact isContinuation_ne_zero h1
    · exact isContinuation_ne_zero h2
    · exact isContinuation_ne_zero h3
    · exact ih b hb

theorem lead_two_not_ascii {c : Nat} (h : c &&& 0xE0 = 0xC0) : ¬ c ≤ 0x7F := by
  have := Nat.and_le_left (n := c) (m := 0xE0)
  omega

theorem land_of_land {c m v : Nat} (m' : Nat) (h : c &&& m = v) (hm : m &&& m' = m') :
    c &&& m' = v &&& m' := by
  rw [← h, Nat.land_assoc, hm]

theorem lead_three_mask {c : Nat} (h : c &&& 0xF0 = 0xE0) : c &&& 0xE0 = 0xE0 :=
  land_of_land 0xE0 h (by decide)

theorem lead_four_mask {c : Nat} (h : c &&& 0xF8 = 0xF0) :
    c &&& 0xF0 = 0xF0 ∧ c &&& 0xE0 = 0xE0 :=
  ⟨land_of_land 0xF0 h (by decide), land_of_land 0xE0 h (by decide)⟩


theorem read_append (pre post : List Nat) (k b : Nat) (h : post[k]? = some b) :
    (pre ++ post)[pre.length + k]? = some b := by
  rw [List.getElem?_append_right (Nat.le_add_right _ _)]
  simpa using h

theorem read_append_zero (pre post : List Nat) (b : Nat) (h : post[0]? = some b) :
    (pre ++ post)[pre.length]? = some b := by
  simpa using read_append pre post 0 b h

theorem loopBody_ascii {bytes : List Nat} {i c : Nat} (result : List Nat)
    (h0 : bytes[i]? = some c) (hc : c ≤ 0x7F) :
    loopBody bytes i result = .ok (result ++ [c], i + 1) := by
  simp [loopBody, readByte_eq h0, hc]

theorem loopBody_two {bytes : List Nat} {i c b1 : Nat} (result : List Nat)
    (h0 : bytes[i]? = some c) (hm : c &&& 0xE0 = 0xC0)
    (hb1 : bytes[i + 1]? = some b1) (h1 : isContinuation b1 = true) :
    loopBody bytes i result = .ok (result ++ [c, b1], i + 2) := by
  simp [loopBody, twoByteTest, andAlso, copyBytes, readByte_eq h0, readByte_eq hb1,
    lead_two_not_ascii hm, hm, h1]

theorem loopBody_three {bytes : List Nat} {i c b1 b2 : Nat} (result : List Nat)
    (h0 : bytes[i]? = some c) (hm : c &&& 0xF0 = 0xE0)
    (hb1 : bytes[i + 1]? = some b1) (h1 : isContinuation b1 = true)
    (hb2 : bytes[i + 2]? = some b2) (h2 : isContinuation b2 = true) :
    loopBody bytes i result = .ok (result ++ [c, b1, b2], i + 3) := by
  have hE := lead_three_mask hm
  have hascii : ¬ c ≤ 0x7F := by
    have := Nat.and_le_left (n := c) (m := 0xF0); omega
  simp [loopBody, twoByteTest, threeByteTest, andAlso, copyBytes, Nat.add_assoc,
    readByte_eq h0, readByte_eq hb1, readByte_eq hb2, hascii, hE, hm, h1, h2]

theorem loopBody_four {bytes : List Nat} {i c b1 b2 b3 : Nat} (result : List Nat)
    (h0 : bytes[i]? = some c) (hm : c &&& 0xF8 = 0xF0)
    (hb1 : bytes[i + 1]? = some b1) (h1 : isContinuation b1 = true)
    (hb2 : bytes[i + 2]? = some b2) (h2 : isContinuation b2 = true)
    (hb3 : bytes[i + 3]? = some b3) (h3 : isContinuation b3 = true) :
    loopBody bytes i result = .ok (result ++ [c, b1, b2, b3], i + 4) := by
  obtain ⟨hF, hE⟩ := lead_four_mask hm
  have hascii : ¬ c ≤ 0x7F := by
    have := Nat.and_le_left (n := c) (m := 0xF8); omega
  simp [loopBody, twoByteTest, threeByteTest, fourByteTest, andAlso, copyBytes, Nat.add_assoc,
    readByte_eq h0, readByte_eq hb1, readByte_eq hb2, readByte_eq hb3, hascii, hE, hF, hm,
    h1, h2, h3]

theorem sanitizeLoop_step {bytes : List Nat} {i c j : Nat} {result r : List Nat} (fuel : Nat)
    (h0 : bytes[i]? = some c) (hc0 : c ≠ 0) (hbody : loopBody bytes i result = .ok (r, j)) :
    sanitizeLoop bytes (fuel + 1) i result = sanitizeLoop bytes fuel j r := by
  simp [sanitizeLoop, readByte_eq h0, hc0, hbody]

/-- On a structurally well-formed string `s` the loop copies every byte: started at the
beginning of `s` (which sits after `pre` in the buffer and is followed by the terminator), it
returns `result ++ s`. -/
theorem sanitizeLoop_wellFormed {s : List Nat} (hs : StructurallyWellFormed s)
    (tail : List Nat) :
    ∀ (pre result : List Nat) (fuel : Nat), s.length ≤ fuel →
      sanitizeLoop (pre ++ (s ++ 0 :: tail)) fuel pre.length result = .ok (result ++ s) := by
  induction hs with
  | nil =>
    intro pre result fuel _
    have h0 := read_append_zero pre (0 :: tail) 0 (by simp)
    cases fuel <;> simp [sanitizeLoop, readByte_eq h0]
  | ascii c rest hc0 hc _ ih =>
    intro pre result fuel hfuel
    obtain ⟨f, rfl⟩ : ∃ f, fuel = f + 1 := ⟨fuel - 1, by simp at hfuel; omega⟩
    have h0 := read_append_zero pre (c :: rest ++ 0 :: tail) c (by simp)
    have := ih (pre ++ [c]) (result ++ [c]) f (by simp at hfuel; omega)
    rw [sanitizeLoop_step f h0 hc0 (loopBody_ascii result h0 hc)]
    simpa using this
  | two c b1 rest hm h1 _ ih =>
    intro pre result fuel hfuel
    obtain ⟨f, rfl⟩ : ∃ f, fuel = f + 1 := ⟨fuel - 1, by simp at hfuel; omega⟩
    have h0 := read_append_zero pre (c :: b1 :: rest ++ 0 :: tail) c (by simp)
    have hb1 := read_append pre (c :: b1 :: rest ++ 0 :: tail) 1 b1 (by simp)
    have hc0 : c ≠ 0 := by rintro rfl; simp at hm
    have := ih (pre ++ [c, b1]) (result ++ [c, b1]) f (by simp at hfuel; omega)
    rw [sanitizeLoop_step f h0 hc0 (loopBody_two result h0 hm hb1 h1)]
    simpa using this
  | three c b1 b2 rest hm h1 h2 _ ih =>
    intro pre result fuel hfuel
    obtain ⟨f, rfl⟩ : ∃ f, fuel = f + 1 := ⟨fuel - 1, by simp at hfuel; omega⟩
    have h0 := read_append_zero pre (c :: b1 :: b2 :: rest ++ 0 :: tail) c (by simp)
    have hb1 := read_append pre (c :: b1 :: b2 :: rest ++ 0 :: tail) 1 b1 (by simp)
    have hb2 := read_append pre (c :: b1 :: b2 :: rest ++ 0 :: tail) 2 b2 (by simp)
    have hc0 : c ≠ 0 := by rintro rfl; simp at hm
    have := ih (pre ++ [c, b1, b2]) (result ++ [c, b1, b2]) f (by simp at hfuel; omega)
    rw [sanitizeLoop_step f h0 hc0 (loopBody_three result h0 hm hb1 h1 hb2 h2)]
    simpa using this
  | four c b1 b2 b3 rest hm h1 h2 h3 _ ih =>
    intro pre result fuel hfuel
    obtain ⟨f, rfl⟩ : ∃ f, fuel = f + 1 := ⟨fuel - 1, by simp at hfuel; omega⟩
    have h0 := read_append_zero pre (c :: b1 :: b2 :: b3 :: rest ++ 0 :: tail) c (by simp)
    have hb1 := read_append pre (c :: b1 :: b2 :: b3 :: rest ++ 0 :: tail) 1 b1 (by simp)
    have hb2 := read_append pre (c :: b1 :: b2 :: b3 :: rest ++ 0 :: tail) 2 b2 (by simp)
    have hb3 := read_append pre (c :: b1 :: b2 :: b3 :: rest ++ 0 :: tail) 3 b3 (by simp)
    have hc0 : c ≠ 0 := by rintro rfl; simp at hm
    have := ih (pre ++ [c, b1, b2, b3]) (result ++ [c, b1, b2, b3]) f
      (by simp at hfuel; omega)
    rw [sanitizeLoop_step f h0 hc0 (loopBody_four result h0 hm hb1 h1 hb2 h2 hb3 h3)]
    simpa using this

/-- The sanitizer returns a structurally well-formed string unchanged. -/
theorem sanitize_of_wellFormed {s : List Nat} (hs : StructurallyWellFormed s)
    (tail : List Nat) : sanitize_utf8_for_jni (some (s ++ 0 :: tail)) = .ok s := by
  have := sanitizeLoop_wellFormed hs tail [] [] (s ++ 0 :: tail).length (by simp)
  simpa [sanitize_utf8_for_jni] using this

theorem sanitizeLoop_succ {bytes : List Nat} {r : List Nat} :
    ∀ (fuel i : Nat) (result : List Nat), sanitizeLoop bytes fuel i result = .ok r →
      sanitizeLoop bytes (fuel + 1) i result = .ok r := by
  intro fuel
  induction fuel with
  | zero =>
    intro i result h
    cases hb : readByte bytes i with
    | ok b =>
      by_cases hz : b = 0
      · simpa [sanitizeLoop, hb, hz] using h
      · simp [sanitizeLoop, hb, hz] at h
    | outOfBounds => simp [sanitizeLoop, hb, Outcome.bind] at h
    | outOfFuel => simp [sanitizeLoop, hb, Outcome.bind] at h
  | succ fuel ih =>
    intro i result h
    cases hb : readByte bytes i with
    | ok b =>
      by_cases hz : b = 0
      · rw [sanitizeLoop]; simpa [sanitizeLoop, hb, hz] using h
      · rw [sanitizeLoop] at h ⊢
        simp only [hb, Outcome.bind_ok, hz, if_false] at h ⊢
        cases hl : loopBody bytes i result with
        | ok st =>
          rw [hl] at h
          simp only [Outcome.bind_ok] at h ⊢
          exact ih _ _ h
        | outOfBounds => simp [hl, Outcome.bind] at h
        | outOfFuel => simp [hl, Outcome.bind] at h
    | outOfBounds => simp [sanitizeLoop, hb, Outcome.bind] at h
    | outOfFuel => simp [sanitizeLoop, hb, Outcome.bind] at h

theorem sanitizeLoop_mono {bytes : List Nat} {r : List Nat} {fuel fuel' i : Nat}
    {result : List Nat} (hle : fuel ≤ fuel')
    (h : sanitizeLoop bytes fuel i result = .ok r) :
    sanitizeLoop bytes fuel' i result = .ok r := by
  induction hle with
  | refl => exact h
  | step _ ih => exact sanitizeLoop_succ _ _ _ ih


theorem Outcome.bind_outOfBounds {α β : Type} (f : α → Outcome β) :
    (Outcome.outOfBounds : Outcome α).bind f = .outOfBounds := rfl

theorem readByte_cases (bytes : List Nat) (i : Nat) :
    readByte bytes i = .outOfBounds ∨ ∃ b, readByte bytes i = .ok b := by
  unfold readByte
  cases bytes[i]? with
  | none => exact .inl rfl
  | some b => exact .inr ⟨b, rfl⟩

theorem twoByteTest_cases (bytes : List Nat) (i c : Nat) :
    twoByteTest bytes i c = .outOfBounds ∨ ∃ t, twoByteTest bytes i c = .ok t := by
  unfold twoByteTest andAlso
  split_ifs
  · rcases readByte_cases bytes (i + 1) with h | ⟨b, h⟩ <;> rw [h]
    · exact .inl rfl
    · exact .inr ⟨_, rfl⟩
  · exact .inr ⟨_, rfl⟩

theorem threeByteTest_cases (bytes : List Nat) (i c : Nat) :
    threeByteTest bytes i c = .outOfBounds ∨ ∃ t, threeByteTest bytes i c = .ok t := by
  unfold threeByteTest andAlso
  split_ifs
  · rcases readByte_cases bytes (i + 1) with h | ⟨b, h⟩ <;> rw [h]
    · exact .inl rfl
    · simp only [Outcome.bind_ok]
      split_ifs
      · rcases readByte_cases bytes (i + 2) with h | ⟨b, h⟩ <;> rw [h]
        · exact .inl rfl
        · exact .inr ⟨_, rfl⟩
      · exact .inr ⟨_, rfl⟩
  · exact .inr ⟨_, rfl⟩

theorem fourByteTest_cases (bytes : List Nat) (i c : Nat) :
    fourByteTest bytes i c = .outOfBounds ∨ ∃ t, fourByteTest bytes i c = .ok t := by
  unfold fourByteTest andAlso
  split_ifs
  · rcases readByte_cases bytes (i + 1) with h | ⟨b, h⟩ <;> rw [h]
    · exact .inl rfl
    · simp only [Outcome.bind_ok]
      split_ifs
      · rcases readByte_cases bytes (i + 2) with h | ⟨b, h⟩ <;> rw [h]
        · exact .inl rfl
        · simp only [Outcome.bind_ok]
          split_ifs
          · rcases readByte_cases bytes (i + 3) with h | ⟨b, h⟩ <;> rw [h]
            · exact .inl rfl
            · exact .inr ⟨_, rfl⟩
          · exact .inr ⟨_, rfl⟩
      · exact .inr ⟨_, rfl⟩
  · exact .inr ⟨_, rfl⟩

theorem copyBytes_cases (bytes : List Nat) (k : Nat) :
    ∀ (i : Nat) (result : List Nat),
      copyBytes bytes i k result = .outOfBounds ∨ ∃ r, copyBytes bytes i k result = .ok r := by
  induction k with
  | zero => intro i result; exact .inr ⟨result, rfl⟩
  | succ k ih =>
    intro i result
    unfold copyBytes
    rcases readByte_cases bytes i with h | ⟨b, h⟩ <;> rw [h]
    · exact .inl rfl
    · exact ih _ _

/-- Whatever the buffer, one execution of the loop body either reads out of bounds or advances
the index by 1 to 4. -/
theorem loopBody_advances (bytes : List Nat) (i : Nat) (result : List Nat) :
    loopBody bytes i result = .outOfBounds ∨
      ∃ r j, loopBody bytes i result = .ok (r, j) ∧ i < j ∧ j ≤ i + 4 := by
  unfold loopBody
  rcases readByte_cases bytes i with h | ⟨c, h⟩ <;> rw [h]
  · exact .inl rfl
  simp only [Outcome.bind_ok]
  split_ifs
  · exact .inr ⟨_, _, rfl, by omega, by omega⟩
  rcases twoByteTest_cases bytes i c with h2 | ⟨t2, h2⟩ <;> rw [h2]
  · exact .inl rfl
  simp only [Outcome.bind_ok]
  split_ifs
  · rcases copyBytes_cases bytes 2 i result with hc | ⟨r, hc⟩ <;> rw [hc]
    · exact .inl rfl
    · exact .inr ⟨_, _, rfl, by omega, by omega⟩
  rcases threeByteTest_cases bytes i c with h3 | ⟨t3, h3⟩ <;> rw [h3]
  · exact .inl rfl
  simp only [Outcome.bind_ok]
  split_ifs
  · rcases copyBytes_cases bytes 3 i result with hc | ⟨r, hc⟩ <;> rw [hc]
    · exact .inl rfl
    · exact .inr ⟨_, _, rfl, by omega, by omega⟩
  rcases fourByteTest_cases bytes i c with h4 | ⟨t4, h4⟩ <;> rw [h4]
  · exact .inl rfl
  simp only [Outcome.bind_ok]
  split_ifs
  · rcases copyBytes_cases bytes 4 i result with hc | ⟨r, hc⟩ <;> rw [hc]
    · exact .inl rfl
    · exact .inr ⟨_, _, rfl, by omega, by omega⟩
  · exact .inr ⟨_, _, rfl, by omega, by omega⟩

/-- The step budget `bytes.length` chosen in `sanitize_utf8_for_jni` is never exhausted: the
loop ends at a zero byte or reads out of bounds first. -/
theorem sanitizeLoop_ne_outOfFuel (bytes : List Nat) :
    ∀ (fuel i : Nat) (result : List Nat), bytes.length ≤ i + fuel →
      sanitizeLoop bytes fuel i result ≠ .outOfFuel := by
  intro fuel
  induction fuel with
  | zero =>
    intro i result hlen
    have : readByte bytes i = .outOfBounds := by
      simp [readByte, List.getElem?_eq_none (by omega : bytes.length ≤ i)]
    simp [sanitizeLoop, this, Outcome.bind]
  | succ fuel ih =>
    intro i result hlen
    unfold sanitizeLoop
    rcases readByte_cases bytes i with h | ⟨b, h⟩ <;> rw [h]
    · simp [Outcome.bind]
    simp only [Outcome.bind_ok]
    split_ifs
    · simp
    rcases loopBody_advances bytes i result with hb | ⟨r, j, hb, hij, _⟩ <;> rw [hb]
    · simp [Outcome.bind]
    · simp only [Outcome.bind_ok]
      exact ih j r (by omega)

theorem sanitize_ne_outOfFuel (text : Option (List Nat)) :
    sanitize_utf8_for_jni text ≠ .outOfFuel := by
  cases text with
  | none => simp [sanitize_utf8_for_jni]
  | some bytes => exact sanitizeLoop_ne_outOfFuel bytes bytes.length 0 [] (by omega)


theorem Step.length_pos_le {bytes : List Nat} {i : Nat} {u : List Nat} (h : Step bytes i u) :
    1 ≤ u.length ∧ u.length ≤ 4 := by
  cases h <;> simp

theorem Step.pointwise {bytes : List Nat} {i : Nat} {u : List Nat} (h : Step bytes i u) :
    ∀ k, k < u.length → ∃ b, bytes[i + k]? = some b ∧
      (u[k]? = some b ∨ (u[k]? = some 0x3F ∧ 0x80 ≤ b)) := by
  intro k hk
  cases h with
  | ascii c hc h0 h1 =>
    simp at hk; subst hk
    exact ⟨c, hc, .inl rfl⟩
  | two c b1 hc hhi hm hb1 hk1 =>
    simp at hk
    interval_cases k
    · exact ⟨c, hc, .inl rfl⟩
    · exact ⟨b1, hb1, .inl rfl⟩
  | three c b1 b2 hc hhi hm hb1 hk1 hb2 hk2 =>
    simp at hk
    interval_cases k
    · exact ⟨c, hc, .inl rfl⟩
    · exact ⟨b1, hb1, .inl rfl⟩
    · exact ⟨b2, hb2, .inl rfl⟩
  | four c b1 b2 b3 hc hhi hm hb1 hk1 hb2 hk2 hb3 hk3 =>
    simp at hk
    interval_cases k
    · exact ⟨c, hc, .inl rfl⟩
    · exact ⟨b1, hb1, .inl rfl⟩
    · exact ⟨b2, hb2, .inl rfl⟩
    · exact ⟨b3, hb3, .inl rfl⟩
  | replace c hc hhi =>
    simp at hk; subst hk
    exact ⟨c, hc, .inr ⟨rfl, hhi⟩⟩

theorem lead2_mask : ∀ k < 32, (0xC0 + k) &&& 0xE0 = 0xC0 := by decide
theorem lead3_mask : ∀ k < 16, (0xE0 + k) &&& 0xF0 = 0xE0 := by decide
theorem lead4_mask : ∀ k < 8, (0xF0 + k) &&& 0xF8 = 0xF0 := by decide
theorem cont_mask : ∀ k < 64, (0x80 + k) &&& 0xC0 = 0x80 := by decide

theorem isContinuation_add (k : Nat) (hk : k < 64) : isContinuation (0x80 + k) = true := by
  simp [isContinuation, cont_mask k hk]

theorem utf8Encode_wellFormed {cp : Nat} (h : isScalarValue cp) (h0 : cp ≠ 0) :
    StructurallyWellFormed (utf8Encode cp) := by
  unfold utf8Encode
  have hmax : cp ≤ 0x10FFFF := by
    rcases h with h | h <;> omega
  split_ifs with h1 h2 h3
  · exact .ascii cp [] h0 (by omega) .nil
  · exact .two _ _ [] (lead2_mask _ (by omega)) (isContinuation_add _ (Nat.mod_lt _ (by decide)))
      .nil
  · exact .three _ _ _ [] (lead3_mask _ (by omega))
      (isContinuation_add _ (Nat.mod_lt _ (by decide)))
      (isContinuation_add _ (Nat.mod_lt _ (by decide))) .nil
  · exact .four _ _ _ _ [] (lead4_mask _ (by omega))
      (isContinuation_add _ (Nat.mod_lt _ (by decide)))
      (isContinuation_add _ (Nat.mod_lt _ (by decide)))
      (isContinuation_add _ (Nat.mod_lt _ (by decide))) .nil

theorem flatMap_utf8Encode_wellFormed (cps : List Nat)
    (h : ∀ cp ∈ cps, isScalarValue cp ∧ cp ≠ 0) :
    StructurallyWellFormed (cps.flatMap utf8Encode) := by
  induction cps with
  | nil => exact .nil
  | cons cp rest ih =>
    rw [List.flatMap_cons]
    exact (utf8Encode_wellFormed (h cp (List.mem_cons_self _ _)).1
      (h cp (List.mem_cons_self _ _)).2).append
      (ih fun c hc => h c (List.mem_cons_of_mem _ hc))

/-- C1 (as stated, refuted): the NUL-terminated inputs `C0 80` (an overlong form), `ED A0 80`
(the encoded surrogate U+D800) and `F4 90 80 80` (the encoded value 0x110000) are returned
unchanged, and none of them is well-formed UTF-8. -/
theorem sanitize_output_not_always_valid_utf8 :
    (FirstZeroAt [0xC0, 0x80, 0] 2 ∧
      sanitize_utf8_for_jni (some [0xC0, 0x80, 0]) = .ok [0xC0, 0x80] ∧
      ¬ ValidUtf8 [0xC0, 0x80]) ∧
    (FirstZeroAt [0xED, 0xA0, 0x80, 0] 3 ∧
      sanitize_utf8_for_jni (some [0xED, 0xA0, 0x80, 0]) = .ok [0xED, 0xA0, 0x80] ∧
      ¬ ValidUtf8 [0xED, 0xA0, 0x80]) ∧
    (FirstZeroAt [0xF4, 0x90, 0x80, 0x80, 0] 4 ∧
      sanitize_utf8_for_jni (some [0xF4, 0x90, 0x80, 0x80, 0]) = .ok [0xF4, 0x90, 0x80, 0x80] ∧
      ¬ ValidUtf8 [0xF4, 0x90, 0x80, 0x80]) := by
  refine ⟨⟨by decide, by decide, ?_⟩, ⟨by decide, by decide, ?_⟩, ⟨by decide, by decide, ?_⟩⟩ <;>
  · rintro ⟨cps, hsc, h⟩
    cases cps with
    | nil => simp at h
    | cons cp rest =>
      have hs := hsc cp (List.mem_cons_self _ _)
      rw [List.flatMap_cons] at h
      unfold utf8Encode at h
      unfold isScalarValue at hs
      split_ifs at h with h1 h2 h3 <;> simp at h <;> omega

/-- C1 (amended): for every NUL-terminated byte string the function returns a string that is
structurally well formed: it splits into chunks that are a non-zero byte `<= 0x7F`, or a lead
byte `110xxxxx`, `1110xxxx`, `11110xxx` followed by exactly one, two, three continuation bytes
`10xxxxxx`. -/
theorem sanitize_output_structurally_well_formed (bytes : List Nat) (n : Nat)
    (h : FirstZeroAt bytes n) :
    ∃ r, sanitize_utf8_for_jni (some bytes) = .ok r ∧ StructurallyWellFormed r :=
  sanitize_wellFormed h

theorem sanitize_output_structurally_well_formed_witness :
    FirstZeroAt [0x41, 0xC0, 0x80, 0xFF, 0] 4 ∧
      ∃ r, sanitize_utf8_for_jni (some [0x41, 0xC0, 0x80, 0xFF, 0]) = .ok r ∧
        StructurallyWellFormed r :=
  ⟨by decide, sanitize_output_structurally_well_formed [0x41, 0xC0, 0x80, 0xFF, 0] 4 (by decide)⟩

/-- C2: for every buffer whose first zero byte is at index `n`, running the function on the
`n + 1` bytes up to and including the terminator with checked indexing never reaches the
out-of-bounds outcome: the run returns a string, and every execution of the loop body at an
index inside the string (all of its look-ahead reads included) succeeds. -/
theorem sanitize_no_read_past_terminator (bytes : List Nat) (n : Nat)
    (h : FirstZeroAt bytes n) :
    (∃ r, sanitize_utf8_for_jni (some (bytes.take (n + 1))) = .ok r) ∧
      ∀ i result, i < n → ∃ st, loopBody (bytes.take (n + 1)) i result = .ok st := by
  refine ⟨?_, fun i result hi => ?_⟩
  · obtain ⟨r, hr, _⟩ := sanitize_wellFormed h.take
    exact ⟨r, hr⟩
  · obtain ⟨u, hu, _⟩ := loopBody_spec h.take hi result
    exact ⟨_, hu⟩

theorem sanitize_no_read_past_terminator_witness :
    FirstZeroAt [0x41, 0xF0, 0x9F, 0, 0x80, 0x80] 3 ∧
      ((∃ r, sanitize_utf8_for_jni (some ([0x41, 0xF0, 0x9F, 0, 0x80, 0x80].take (3 + 1)))
          = .ok r) ∧
        ∀ i result, i < 3 →
          ∃ st, loopBody ([0x41, 0xF0, 0x9F, 0, 0x80, 0x80].take (3 + 1)) i result = .ok st) :=
  ⟨by decide, sanitize_no_read_past_terminator [0x41, 0xF0, 0x9F, 0, 0x80, 0x80] 3 (by decide)⟩

/-- C3: for every NUL-terminated input with `n` bytes before the first NUL the function returns
exactly `n` bytes, and at every position `j < n` the output byte is the input byte at `j` or the
replacement byte `0x3F`, the latter only where the input byte is `>= 0x80`. -/
theorem sanitize_replaces_bytewise (bytes : List Nat) (n : Nat) (h : FirstZeroAt bytes n) :
    ∃ r, sanitize_utf8_for_jni (some bytes) = .ok r ∧ r.length = n ∧
      ∀ j, j < n → ∃ b, bytes[j]? = some b ∧
        (r[j]? = some b ∨ (r[j]? = some 0x3F ∧ 0x80 ≤ b)) := by
  have := sanitize_invariant h
    (fun i result => result.length = i ∧ ∀ j, j < i → ∃ b, bytes[j]? = some b ∧
        (result[j]? = some b ∨ (result[j]? = some 0x3F ∧ 0x80 ≤ b)))
    ⟨rfl, fun j hj => absurd hj (Nat.not_lt_zero j)⟩ ?_
  · obtain ⟨r, hr, hlen, hpt⟩ := this
    exact ⟨r, hr, hlen, hpt⟩
  · rintro i result u hi ⟨hlen, hpt⟩ hu hle
    refine ⟨by simp [hlen], fun j hj => ?_⟩
    rcases Nat.lt_or_ge j i with hji | hji
    · obtain ⟨b, hb, hcase⟩ := hpt j hji
      refine ⟨b, hb, ?_⟩
      rwa [List.getElem?_append_left (by omega)]
    · obtain ⟨k, rfl⟩ : ∃ k, j = i + k := ⟨j - i, by omega⟩
      obtain ⟨b, hb, hcase⟩ := hu.pointwise k (by omega)
      refine ⟨b, hb, ?_⟩
      rw [List.getElem?_append_right (by omega)]
      simpa [hlen] using hcase

theorem sanitize_replaces_bytewise_witness :
    FirstZeroAt [0x41, 0xE2, 0x82, 0x42, 0xC3, 0] 5 ∧
      ∃ r, sanitize_utf8_for_jni (some [0x41, 0xE2, 0x82, 0x42, 0xC3, 0]) = .ok r ∧
        r.length = 5 ∧
        ∀ j, j < 5 → ∃ b, [0x41, 0xE2, 0x82, 0x42, 0xC3, 0][j]? = some b ∧
          (r[j]? = some b ∨ (r[j]? = some 0x3F ∧ 0x80 ≤ b)) :=
  ⟨by decide, sanitize_replaces_bytewise [0x41, 0xE2, 0x82, 0x42, 0xC3, 0] 5 (by decide)⟩

/-- C7: a null pointer returns the empty string at once; on every NUL-terminated input with `n`
bytes before the terminator each execution of the loop body succeeds and advances the index by
1, 2, 3 or 4 without passing the terminator, `n` executions of the body are enough for the loop
to finish (and any larger budget gives the same string), and the function returns.  The step
budget of the model is never the reason for stopping, on any buffer. -/
theorem sanitize_terminates (bytes : List Nat) (n : Nat) (h : FirstZeroAt bytes n) :
    sanitize_utf8_for_jni none = .ok [] ∧
      (∀ i result, i < n → ∃ r j, loopBody bytes i result = .ok (r, j) ∧
        i < j ∧ j ≤ i + 4 ∧ j ≤ n) ∧
      (∃ r, (∀ fuel, n ≤ fuel → sanitizeLoop bytes fuel 0 [] = .ok r) ∧
        sanitize_utf8_for_jni (some bytes) = .ok r) ∧
      ∀ text, sanitize_utf8_for_jni text ≠ .outOfFuel := by
  refine ⟨rfl, fun i result hi => ?_, ?_, sanitize_ne_outOfFuel⟩
  · obtain ⟨u, hu, hle, hstep⟩ := loopBody_spec h hi result
    have := hstep.length_pos_le
    exact ⟨_, _, hu, by omega, by omega, hle⟩
  · have hrun : ∃ r, sanitizeLoop bytes n 0 [] = .ok r ∧ True := by
      refine sanitizeLoop_invariant h (fun _ _ => True) ?_ n 0 [] (Nat.zero_le _) (by omega)
        trivial
      intro i result hi _
      obtain ⟨u, hu, hle, hstep⟩ := loopBody_spec h hi result
      have := hstep.length_pos_le
      exact ⟨_, _, hu, by omega, hle, trivial⟩
    obtain ⟨r, hr, _⟩ := hrun
    refine ⟨r, fun fuel hfuel => sanitizeLoop_mono hfuel hr, ?_⟩
    exact sanitizeLoop_mono (Nat.le_of_lt h.lt_length) hr

theorem sanitize_terminates_witness :
    FirstZeroAt [0xF0, 0x9F, 0x98, 0x80, 0xE2, 0x41, 0] 6 ∧
      (sanitize_utf8_for_jni none = .ok [] ∧
      (∀ i result, i < 6 →
        ∃ r j, loopBody [0xF0, 0x9F, 0x98, 0x80, 0xE2, 0x41, 0] i result = .ok (r, j) ∧
        i < j ∧ j ≤ i + 4 ∧ j ≤ 6) ∧
      (∃ r, (∀ fuel, 6 ≤ fuel →
          sanitizeLoop [0xF0, 0x9F, 0x98, 0x80, 0xE2, 0x41, 0] fuel 0 [] = .ok r) ∧
        sanitize_utf8_for_jni (some [0xF0, 0x9F, 0x98, 0x80, 0xE2, 0x41, 0]) = .ok r) ∧
      ∀ text, sanitize_utf8_for_jni text ≠ .outOfFuel) :=
  ⟨by decide, sanitize_terminates [0xF0, 0x9F, 0x98, 0x80, 0xE2, 0x41, 0] 6 (by decide)⟩

/-- C8: the function is the identity on well-formed input: if the bytes before the terminator
are the UTF-8 encoding of a sequence of Unicode scalar values, none of them U+0000, the
returned string equals those bytes (whatever follows the terminator in memory). -/
theorem sanitize_identity_on_valid_utf8 (cps tail : List Nat)
    (h : ∀ cp ∈ cps, isScalarValue cp ∧ cp ≠ 0) :
    sanitize_utf8_for_jni (some (cps.flatMap utf8Encode ++ 0 :: tail))
      = .ok (cps.flatMap utf8Encode) :=
  sanitize_of_wellFormed (flatMap_utf8Encode_wellFormed cps h) tail

theorem sanitize_identity_on_valid_utf8_witness :
    (∀ cp ∈ [0x41, 0xE9, 0x20AC, 0x1F600], isScalarValue cp ∧ cp ≠ 0) ∧
      sanitize_utf8_for_jni
          (some ([0x41, 0xE9, 0x20AC, 0x1F600].flatMap utf8Encode ++ 0 :: [0xFF]))
        = .ok ([0x41, 0xE9, 0x20AC, 0x1F600].flatMap utf8Encode) :=
  ⟨by decide, sanitize_identity_on_valid_utf8 [0x41, 0xE9, 0x20AC, 0x1F600] [0xFF] (by decide)⟩

/-- C9: the function is idempotent: for every NUL-terminated input it returns a string `r`, and
run again on `r` (as the C string `r` followed by its terminator) it returns `r` again. -/
theorem sanitize_idempotent (bytes : List Nat) (n : Nat) (h : FirstZeroAt bytes n) :
    ∃ r, sanitize_utf8_for_jni (some bytes) = .ok r ∧
      sanitize_utf8_for_jni (some (r ++ [0])) = .ok r := by
  obtain ⟨r, hr, hwf⟩ := sanitize_wellFormed h
  exact ⟨r, hr, sanitize_of_wellFormed hwf []⟩

theorem sanitize_idempotent_witness :
    FirstZeroAt [0xE0, 0x80, 0x41, 0xC3, 0xA9, 0x80, 0] 6 ∧
      ∃ r, sanitize_utf8_for_jni (some [0xE0, 0x80, 0x41, 0xC3, 0xA9, 0x80, 0]) = .ok r ∧
        sanitize_utf8_for_jni (some (r ++ [0])) = .ok r :=
  ⟨by decide, sanitize_idempotent [0xE0, 0x80, 0x41, 0xC3, 0xA9, 0x80, 0] 6 (by decide)⟩

end rnbridge

namespace jni

open rnbridge

theorem takeWhile_append_zero (s tail : List Nat) (hs : ∀ b ∈ s, b ≠ 0) :
    (s ++ 0 :: tail).takeWhile (· ≠ 0) = s := by
  induction s with
  | nil => simp
  | cons a rest ih =>
    have ha : a ≠ 0 := hs a (List.mem_cons_self _ _)
    have := ih fun b hb => hs b (List.mem_cons_of_mem _ hb)
    simp only [List.cons_append, List.takeWhile_cons, ha, ne_eq, not_false_eq_true,
      decide_True, if_true, this]

theorem NewStringUTF_append_zero (s tail : List Nat) (hs : ∀ b ∈ s, b ≠ 0) :
    NewStringUTF (s ++ 0 :: tail) = .ok s := by
  have := takeWhile_append_zero s tail hs
  unfold NewStringUTF
  rw [if_pos (by simp), this]

theorem firstZeroAt_split {p : List Nat} {k : Nat} (h : FirstZeroAt p k) :
    p = p.take k ++ 0 :: p.drop (k + 1) := by
  have hlen := h.lt_length
  have h0 : p[k] = 0 := by
    have := h.1
    rw [List.getElem?_eq_getElem hlen] at this
    exact Option.some.inj this
  conv_lhs => rw [← List.take_append_drop k p, List.drop_eq_getElem_cons hlen, h0]

theorem NewStringUTF_of_firstZeroAt {p : List Nat} {k : Nat} (h : FirstZeroAt p k) :
    NewStringUTF p = .ok (p.take k) := by
  conv_lhs => rw [firstZeroAt_split h]
  exact NewStringUTF_append_zero _ _ h.2

theorem NewStringUTF_c_str (r : List Nat) (hr : ∀ b ∈ r, b ≠ 0) :
    NewStringUTF (c_str r) = .ok r :=
  NewStringUTF_append_zero r [] hr

/-- The sanitizer returns, on a null pointer or a NUL-terminated buffer, a string without zero
byte. -/
theorem sanitize_value (value : Option (List Nat))
    (hvalue : ∀ bytes, value = some bytes → ∃ n, FirstZeroAt bytes n) :
    ∃ r, sanitize_utf8_for_jni value = .ok r ∧ (value = none → r = []) ∧ ∀ b ∈ r, b ≠ 0 := by
  cases value with
  | none => exact ⟨[], rfl, fun _ => rfl, by simp⟩
  | some bytes =>
    obtain ⟨n, hn⟩ := hvalue bytes rfl
    obtain ⟨r, hr, hwf⟩ := sanitize_wellFormed hn
    exact ⟨r, hr, by simp, hwf.ne_zero⟩

end jni

namespace maputils

open rnbridge jni

/-- C4: `maputils::putString` and `listutils::pushString` sanitize the value first.  For a
non-null container, a key that is a C string and a value that is null or a C string, the
sanitizer returns a string `r` (the empty string for a null value), the Java string stored under
the key, respectively appended to the list, is the one built from `r`, and the only C string
handed to `NewStringUTF` for the value is `r.c_str()`.  With a null container nothing is stored
and `NewStringUTF` is not called. -/
theorem putString_pushString_store_sanitized {D : Type} (m : JMap D) (elems : List (jobject D))
    (key : List Nat) (k : Nat) (value : Option (List Nat)) (hkey : FirstZeroAt key k)
    (hvalue : ∀ bytes, value = some bytes → ∃ n, FirstZeroAt bytes n) :
    ∃ r, sanitize_utf8_for_jni value = .ok r ∧ (value = none → r = []) ∧
      maputils.putString (some m) key value
        = .ok ⟨some (m.put (key.take k) (some (.string r))), [key, c_str r]⟩ ∧
      listutils.pushString (some elems) value
        = .ok ⟨some (elems ++ [some (.string r)]), [c_str r]⟩ ∧
      maputils.putString (none : Option (JMap D)) key value = .ok ⟨none, []⟩ ∧
      listutils.pushString (none : Option (List (jobject D))) value = .ok ⟨none, []⟩ := by
  obtain ⟨r, hr, hnull, hnz⟩ := sanitize_value value hvalue
  refine ⟨r, hr, hnull, ?_, ?_, rfl, rfl⟩
  · simp [maputils.putString, NewStringUTF_of_firstZeroAt hkey, hr, NewStringUTF_c_str r hnz]
  · simp [listutils.pushString, hr, NewStringUTF_c_str r hnz]

theorem putString_pushString_store_sanitized_witness :
    FirstZeroAt [0x6B, 0] 1 ∧
    (∀ bytes, some [0x41, 0xFF, 0] = some bytes → ∃ n, FirstZeroAt bytes n) ∧
    ∃ r, sanitize_utf8_for_jni (some [0x41, 0xFF, 0]) = .ok r ∧
      ((some [0x41, 0xFF, 0] : Option (List Nat)) = none → r = []) ∧
      maputils.putString (some (⟨fun _ => false, fun _ => none⟩ : JMap Unit)) [0x6B, 0]
          (some [0x41, 0xFF, 0])
        = .ok ⟨some ((⟨fun _ => false, fun _ => none⟩ : JMap Unit).put ([0x6B, 0].take 1)
            (some (.string r))), [[0x6B, 0], c_str r]⟩ ∧
      listutils.pushString (some ([] : List (jobject Unit))) (some [0x41, 0xFF, 0])
        = .ok ⟨some ([] ++ [some (.string r)]), [c_str r]⟩ ∧
      maputils.putString (none : Option (JMap Unit)) [0x6B, 0] (some [0x41, 0xFF, 0])
        = .ok ⟨none, []⟩ ∧
      listutils.pushString (none : Option (List (jobject Unit))) (some [0x41, 0xFF, 0])
        = .ok ⟨none, []⟩ :=
  have hv : ∀ bytes, some [0x41, 0xFF, 0] = some bytes → ∃ n, FirstZeroAt bytes n :=
    fun bytes hb => ⟨2, by cases hb; decide⟩
  ⟨by decide, hv,
    putString_pushString_store_sanitized ⟨fun _ => false, fun _ => none⟩ [] [0x6B, 0] 1
      (some [0x41, 0xFF, 0]) (by decide) hv⟩

end maputils

namespace mapreader

open rnbridge jni

/-- C10: the typed map readers return and fall back to the caller's default.  For a key that is
a C string naming the Java key `key.take k`: `getInt`, `getLong` and `getFloat` return
`defaultValue` when the map is null, `containsKey` is false, `get` returns null, or the value is
not a `java.lang.Number`, and `getBool` does so with `java.lang.Boolean`; when the key is
present with a `Number` the results are its `intValue`, `longValue` and its `doubleValue`
converted to `float`, and with a `Boolean` its `booleanValue`. -/
theorem typed_readers_fall_back_to_default {D F : Type} (toFloat : D → F)
    (map : Option (JMap D)) (key : List Nat) (k : Nat) (dInt dLong : Int) (dFloat : F)
    (dBool : Bool) (hkey : FirstZeroAt key k) :
    ((map = none ∨ ∃ m, map = some m ∧ (m.containsKey (key.take k) = false ∨
          m.get (key.take k) = none ∨
          ∃ obj, m.get (key.take k) = some obj ∧ obj.isNumber = false)) →
        getInt map key dInt = .ok dInt ∧ getLong map key dLong = .ok dLong ∧
        getFloat toFloat map key dFloat = .ok dFloat) ∧
    ((map = none ∨ ∃ m, map = some m ∧ (m.containsKey (key.take k) = false ∨
          m.get (key.take k) = none ∨
          ∃ obj, m.get (key.take k) = some obj ∧ obj.isBoolean = false)) →
        getBool map key dBool = .ok dBool) ∧
    (∀ m intValue longValue doubleValue, map = some m → m.containsKey (key.take k) = true →
        m.get (key.take k) = some (.number intValue longValue doubleValue) →
        getInt map key dInt = .ok intValue ∧ getLong map key dLong = .ok longValue ∧
        getFloat toFloat map key dFloat = .ok (toFloat doubleValue)) ∧
    (∀ m booleanValue, map = some m → m.containsKey (key.take k) = true →
        m.get (key.take k) = some (.boolean booleanValue) →
        getBool map key dBool = .ok booleanValue) := by
  have hk := NewStringUTF_of_firstZeroAt hkey
  refine ⟨?_, ?_, ?_, ?_⟩
  · rintro (rfl | ⟨m, rfl, hc | hg | ⟨obj, hg, hn⟩⟩)
    · simp [getInt, getLong, getFloat, hasKey, jnihelpers.mapContainsKey]
    · simp [getInt, getLong, getFloat, hasKey, jnihelpers.mapContainsKey, hk, hc]
    · cases hc : m.containsKey (key.take k) <;>
        simp [getInt, getLong, getFloat, hasKey, jnihelpers.mapContainsKey, jnihelpers.mapGet,
          hk, hc, hg]
    · cases hc : m.containsKey (key.take k) <;> cases obj <;>
        simp_all [getInt, getLong, getFloat, hasKey, jnihelpers.mapContainsKey,
          jnihelpers.mapGet, JObject.isNumber]
  · rintro (rfl | ⟨m, rfl, hc | hg | ⟨obj, hg, hn⟩⟩)
    · simp [getBool, hasKey, jnihelpers.mapContainsKey]
    · simp [getBool, hasKey, jnihelpers.mapContainsKey, hk, hc]
    · cases hc : m.containsKey (key.take k) <;>
        simp [getBool, hasKey, jnihelpers.mapContainsKey, jnihelpers.mapGet, hk, hc, hg]
    · cases hc : m.containsKey (key.take k) <;> cases obj <;>
        simp_all [getBool, hasKey, jnihelpers.mapContainsKey, jnihelpers.mapGet,
          JObject.isBoolean]
  · rintro m iv lv dv rfl hc hg
    simp [getInt, getLong, getFloat, hasKey, jnihelpers.mapContainsKey, jnihelpers.mapGet,
      hk, hc, hg]
  · rintro m b rfl hc hg
    simp [getBool, hasKey, jnihelpers.mapContainsKey, jnihelpers.mapGet, hk, hc, hg]


theorem typed_readers_fall_back_to_default_witness :
    FirstZeroAt [0x6E, 0] 1 ∧
    (((some exampleMap = none ∨ ∃ m, some exampleMap = some m ∧
          (m.containsKey ([0x6E, 0].take 1) = false ∨
          m.get ([0x6E, 0].take 1) = none ∨
          ∃ obj, m.get ([0x6E, 0].take 1) = some obj ∧ obj.isNumber = false)) →
        getInt (some exampleMap) [0x6E, 0] (-1) = .ok (-1) ∧
        getLong (some exampleMap) [0x6E, 0] (-2) = .ok (-2) ∧
        getFloat Int.toNat (some exampleMap) [0x6E, 0] 0 = .ok 0) ∧
    ((some exampleMap = none ∨ ∃ m, some exampleMap = some m ∧
          (m.containsKey ([0x6E, 0].take 1) = false ∨
          m.get ([0x6E, 0].take 1) = none ∨
          ∃ obj, m.get ([0x6E, 0].take 1) = some obj ∧ obj.isBoolean = false)) →
        getBool (some exampleMap) [0x6E, 0] false = .ok false) ∧
    (∀ m intValue longValue doubleValue, some exampleMap = some m →
        m.containsKey ([0x6E, 0].take 1) = true →
        m.get ([0x6E, 0].take 1) = some (.number intValue longValue doubleValue) →
        getInt (some exampleMap) [0x6E, 0] (-1) = .ok intValue ∧
        getLong (some exampleMap) [0x6E, 0] (-2) = .ok longValue ∧
        getFloat Int.toNat (some exampleMap) [0x6E, 0] 0 = .ok (Int.toNat doubleValue)) ∧
    (∀ m booleanValue, some exampleMap = some m →
        m.containsKey ([0x6E, 0].take 1) = true →
        m.get ([0x6E, 0].take 1) = some (.boolean booleanValue) →
        getBool (some exampleMap) [0x6E, 0] false = .ok booleanValue)) :=
  ⟨by decide,
    typed_readers_fall_back_to_default Int.toNat (some exampleMap) [0x6E, 0] 1 (-1) (-2) 0 false
      (by decide)⟩

end mapreader

namespace RNLlamaContext

theorem countP_dispatchFirst (requests : List Request) :
    (dispatchFirst requests).countP (fun r => r.state.isActive)
      ≤ requests.countP (fun r => r.state.isActive) + 1 := by
  induction requests with
  | nil => simp [dispatchFirst]
  | cons r rest ih =>
    unfold dispatchFirst
    by_cases hq : r.state = .queued
    · by_cases hc : r.cancelFlag = true <;>
        simp [hq, hc, List.countP_cons, RequestState.isActive]
    · simp only [hq, if_false, List.countP_cons]
      omega

theorem isActive_advanceRequest (outcome : EngineOutcome) (r : Request)
    (h : (advanceRequest outcome r).state.isActive = true) : r.state.isActive = true := by
  unfold advanceRequest at h
  by_cases ha : r.state.isActive = true
  · exact ha
  · simp [ha] at h

theorem countP_map_le (f : Request → Request) (requests : List Request)
    (hf : ∀ r, (f r).state.isActive = true → r.state.isActive = true) :
    (requests.map f).countP (fun r => r.state.isActive)
      ≤ requests.countP (fun r => r.state.isActive) := by
  induction requests with
  | nil => simp
  | cons r rest ih =>
    rw [List.map_cons, List.countP_cons, List.countP_cons]
    by_cases h : (f r).state.isActive = true
    · rw [if_pos h, if_pos (hf r h)]; omega
    · rw [if_neg h]; split_ifs <;> omega

theorem activeCount_enqueue (s : Scheduler) (kind : RequestKind) (b : Nat) :
    (enqueue s kind b).2.activeCount = s.activeCount := by
  simp [enqueue, Scheduler.activeCount, List.countP_append, RequestState.isActive]

theorem activeCount_cancelRequest (s : Scheduler) (id : Nat) :
    (cancelRequest s id).activeCount ≤ s.activeCount := by
  unfold cancelRequest Scheduler.activeCount
  apply countP_map_le
  intro r h
  split_ifs at h <;> simpa using h

theorem activeCount_advance (s : Scheduler) (id : Nat) (outcome : EngineOutcome) :
    (advance s id outcome).activeCount ≤ s.activeCount := by
  unfold advance Scheduler.activeCount
  apply countP_map_le
  intro r h
  split_ifs at h
  · exact isActive_advanceRequest outcome r h
  · exact h

theorem activeCount_dispatch (s : Scheduler) (hmode : s.slotPool = none)
    (h : s.activeCount ≤ 1) : (dispatch s).activeCount ≤ 1 := by
  unfold dispatch
  by_cases hd : mayDispatch s = true
  · have h0 : s.activeCount = 0 := by simpa [mayDispatch, hmode] using hd
    have := countP_dispatchFirst s.requests
    simp only [hd, if_true, Scheduler.activeCount] at h0 ⊢
    omega
  · simpa [hd] using h

theorem step_slotPool (s : Scheduler) (e : Event) : (step s e).slotPool = s.slotPool := by
  cases e <;> simp [step, queueCompletion, queueEmbedding, queueRerank, enqueue, cancelRequest,
    advance, dispatch]
  split_ifs <;> rfl

theorem step_activeCount (s : Scheduler) (e : Event) (hmode : s.slotPool = none)
    (h : s.activeCount ≤ 1) : (step s e).activeCount ≤ 1 := by
  cases e with
  | queueCompletion b => simpa [step, queueCompletion, activeCount_enqueue] using h
  | queueEmbedding b => simpa [step, queueEmbedding, activeCount_enqueue] using h
  | queueRerank b => simpa [step, queueRerank, activeCount_enqueue] using h
  | cancelRequest id => exact le_trans (activeCount_cancelRequest s id) h
  | dispatch => exact activeCount_dispatch s hmode h
  | advance id outcome => exact le_trans (activeCount_advance s id outcome) h

theorem run_invariant (events : List Event) :
    ∀ s : Scheduler, s.slotPool = none → s.activeCount ≤ 1 →
      (run s events).slotPool = none ∧ (run s events).activeCount ≤ 1 := by
  induction events with
  | nil => intro s hmode h; exact ⟨hmode, h⟩
  | cons e rest ih =>
    intro s hmode h
    exact ih (step s e) (by rw [step_slotPool, hmode]) (step_activeCount s e hmode h)

/-- C5: in non-parallel mode at most one Request is in state Running or Streaming at any
instant: for every sequence of enqueue calls (`queueCompletion`, `queueEmbedding`,
`queueRerank`), `cancelRequest` calls and steps of the dispatch loop applied to a fresh
scheduler, and at every point `k` of that sequence, the scheduler is still in non-parallel mode
and counts at most one Running or Streaming Request. -/
theorem non_parallel_at_most_one_active (events : List Event) (k : Nat) :
    (run Scheduler.initial (events.take k)).slotPool = none ∧
      (run Scheduler.initial (events.take k)).activeCount ≤ 1 :=
  run_invariant (events.take k) Scheduler.initial rfl (by decide)

/-- C6: `enableParallelMode` returns false whenever `nParallel <= 0` or `nBatch < nParallel`,
and then leaves the scheduler unchanged: no Slot pool is allocated, so a scheduler in
non-parallel mode stays in non-parallel mode. -/
theorem enableParallelMode_rejects_invalid (s : Scheduler) (nParallel nBatch : Int)
    (h : nParallel ≤ 0 ∨ nBatch < nParallel) :
    enableParallelMode s nParallel nBatch = (false, s) ∧
      (s.slotPool = none → (enableParallelMode s nParallel nBatch).2.slotPool = none) := by
  have : enableParallelMode s nParallel nBatch = (false, s) := by
    simp [enableParallelMode, h]
  exact ⟨this, fun hs => by rw [this]; exact hs⟩

theorem enableParallelMode_rejects_invalid_witness :
    ((4 : Int) ≤ 0 ∨ (2 : Int) < 4) ∧
      (enableParallelMode Scheduler.initial 4 2 = (false, Scheduler.initial) ∧
        (Scheduler.initial.slotPool = none →
          (enableParallelMode Scheduler.initial 4 2).2.slotPool = none)) :=
  ⟨by decide, enableParallelMode_rejects_invalid Scheduler.initial 4 2 (by decide)⟩

end RNLlamaContext
